import Mathlib

set_option maxRecDepth 4000

/-!
# Verification of the dashboard's trade-reconciliation and equity-curve core

This file gives a shallow embedding, in Lean 4, of the data-transformation
core of the `realbotdashboard` repository (`src/app/page.tsx`):

* `normalizeSide`   — side-label normalisation (page.tsx, lines 53–59);
* `parseTimestamp`  — timestamp parsing (page.tsx, lines 62–67);
* `tradesMerged`    — merge of the two trade sources by (slug, normalized
  side) key through a JavaScript `Map` (page.tsx, lines 379–391);
* `buildChartData`  — the equity-curve builder (page.tsx, lines 108–151).

Modelling conventions:

* JavaScript numbers that the code keeps finite are modelled as rationals
  (`ℚ`); a possibly non-finite number field (`pnl_usdc`) is modelled as
  `Option ℚ`, `none` standing for a non-finite value (`NaN`/`±Infinity`),
  which `Number.isFinite` rejects.
* A JavaScript `Date`'s time value is modelled as `Option Int`
  (milliseconds since the epoch); `none` stands for the `NaN` time value
  of an Invalid Date.
* The host's string-to-date parser (`new Date(string)`) is an external
  input, passed in as a function `jsParse : String → Option Int` giving
  the parsed millisecond value, `none` on failure.
* `Date.now()` is read inside `buildChartData` in the source; since a
  pure embedding has no ambient clock, the value `Math.floor(Date.now() /
  1000)` is passed to the embedded function as the explicit argument
  `nowSec`.
* `Array.prototype.sort` is a comparator-driven stable sort; every
  comparator in this file has the shape `(a, b) => ka - kb`.  It is
  modelled by a stable insertion sort (`jsSort`) over the boolean
  relation `ka ≤ kb`, with a comparison against a `NaN` key treated as
  "equal" (the ECMAScript `SortCompare` turns a `NaN` comparator result
  into `+0`; for inconsistent comparators the resulting order is
  implementation-defined, and this model fixes the stable-insertion
  result).
* A JavaScript `Map` is modelled as an insertion-ordered association
  list (`jsMapSet`); `Map.prototype.set` on an existing key replaces the
  value in place, keeping the key's original insertion position.
-/

/-- A JavaScript value fed to `parseTimestamp`: an ISO-like string, a
unix-seconds number, or `null`/`undefined` (both collapse to `null`,
which is how `ts == null` treats them). -/
inductive TsValue where
  | str (s : String)
  | num (n : Int)
  | null
deriving DecidableEq, Repr

/-- One trade record, after `src/lib/types.ts` (`TradeRecord`).  The
`timestamp` field is declared `string` in TypeScript but flows through
`parseTimestamp`, which accepts strings, numbers and null (the analytics
records are cast from `any`), hence `TsValue`.  `pnl_usdc` is `Option ℚ`
with `none` for a non-finite number. -/
structure TradeRecord where
  timestamp : TsValue
  slug : String
  side : String
  entry_price : ℚ := 0
  size_usdc : ℚ := 0
  result : String
  pnl_usdc : Option ℚ := none
  reason : String := ""
  resolved_at : Option TsValue := none
  redeemed : Option Bool := none
deriving DecidableEq, Repr

/-- `toUpperCase`, modelled character-by-character with `Char.toUpper`
(the two agree on the ASCII labels this code handles). -/
def jsToUpperCase (s : String) : String :=
  String.mk (s.data.map Char.toUpper)

/-- `normalizeSide` (page.tsx, lines 53–59).  `none` models
`null`/`undefined`; the only falsy string is `""`. -/
def normalizeSide (raw : Option String) : String :=
  match raw with
  | none => ""
  | some s =>
    if s = "" then ""
    else
      let u := jsToUpperCase s
      if u = "UP" then "YES"
      else if u = "DOWN" then "NO"
      else u

/-- `parseTimestamp` (page.tsx, lines 62–67), returning the `Date`'s
millisecond time value; `none` is the `NaN` time of an Invalid Date.
`null` input gives `new Date(NaN)`; a number is unix seconds
(`new Date(ts * 1000)`); a string is handed to the host parser and falls
back to the epoch (`new Date(0)`) when the host returns an Invalid
Date. -/
def parseTimestamp (jsParse : String → Option Int) (ts : TsValue) : Option Int :=
  match ts with
  | .null => none
  | .num n => some (n * 1000)
  | .str s => some ((jsParse s).getD 0)

/-- `Math.floor(parseTimestamp(x).getTime() / 1000)`: the second-granular
timestamp used by the curve builder.  `Math.floor` of a `NaN` quotient is
`NaN`; on numbers it is flooring division. -/
def tsSec (jsParse : String → Option Int) (ts : TsValue) : Option Int :=
  (parseTimestamp jsParse ts).map (fun ms => Int.fdiv ms 1000)

/-- The boolean order on possibly-`NaN` sort keys induced by the
comparator `(a, b) => a - b`: on two numbers it is `≤`; any comparison
involving `NaN` yields a `NaN` comparator result, which `SortCompare`
treats as `+0`, i.e. "equal" — so both directions hold. -/
def jsKeyLe (a b : Option Int) : Bool :=
  match a, b with
  | some x, some y => decide (x ≤ y)
  | _, _ => true

/-- Stable insertion of `x` into `l`: `x` goes in front of the first
element `y` with `le x y` (so, among key-equal elements, the earlier
original element stays first — the stability guarantee of
`Array.prototype.sort`). -/
def jsInsert (le : α → α → Bool) (x : α) : List α → List α
  | [] => [x]
  | y :: ys => if le x y then x :: y :: ys else y :: jsInsert le x ys

/-- Stable sort modelling `Array.prototype.sort` with a comparator whose
boolean form is `le`. -/
def jsSort (le : α → α → Bool) (l : List α) : List α :=
  l.foldr (jsInsert le) []

/-- `Map.prototype.set`, on the insertion-ordered association-list model
of a JavaScript `Map`: an existing key keeps its original position and
gets the new value; a new key is appended. -/
def jsMapSet [BEq κ] (m : List (κ × α)) (k : κ) (v : α) : List (κ × α) :=
  if m.any (fun e => e.1 == k) then
    m.map (fun e => if e.1 == k then (k, v) else e)
  else
    m ++ [(k, v)]

/-- One chart point (`LineData` of lightweight-charts): `time` is the
UTC timestamp in seconds, `none` standing for a `NaN` time value. -/
structure LineData where
  time : Option Int
  value : ℚ
deriving DecidableEq, Repr

/-- The pair returned by `buildChartData`. -/
structure ChartOut where
  data : List LineData
  ath : ℚ
deriving DecidableEq, Repr

/-- `CHART_START_EQUITY` (page.tsx, line 109): start equity for the
chart, 111.80, a hardcoded constant. -/
def CHART_START_EQUITY : ℚ := 1118 / 10

/-- The filter on line 115–117: only trades whose `result` is `"WIN"` or
`"LOSS"` enter the curve. -/
def isResolved (t : TradeRecord) : Bool :=
  t.result == "WIN" || t.result == "LOSS"

/-- The sort comparator on lines 118–120:
`parseTimestamp(a.timestamp).getTime() - parseTimestamp(b.timestamp).getTime()`,
in the boolean form taken by `jsSort`. -/
def tradeLe (jsParse : String → Option Int) (a b : TradeRecord) : Bool :=
  jsKeyLe (parseTimestamp jsParse a.timestamp) (parseTimestamp jsParse b.timestamp)

/-- One step of the fold on lines 130–138.  State: points emitted so
far, `running`, `ath`.  A non-finite `pnl` (`none`) is skipped before
touching the state; a `NaN` second-timestamp suppresses the point but
keeps the updated `running`/`ath` (`running` itself is always finite, so
the `Number.isFinite(running)` conjunct never fires). -/
def curveStep (jsParse : String → Option Int)
    (st : List LineData × ℚ × ℚ) (t : TradeRecord) : List LineData × ℚ × ℚ :=
  let (out, running, ath) := st
  match t.pnl_usdc with
  | none => (out, running, ath)
  | some p =>
    let running' := running + p
    let ath' := if running' > ath then running' else ath
    match tsSec jsParse t.timestamp with
    | none => (out, running', ath')
    | some s => (out ++ [⟨some s, running'⟩], running', ath')

/-- Lines 118–120: the resolved trades, sorted ascending by parsed
timestamp (stable). -/
def sortedTrades (jsParse : String → Option Int) (trades : List TradeRecord) :
    List TradeRecord :=
  jsSort (tradeLe jsParse) (trades.filter isResolved)

/-- Lines 114–141 of `buildChartData`: the raw point array `out`
together with the final `running` and `ath`, before the validity filter
and the deduplicating `Map`.  The empty case pushes the two anchor
points; otherwise a seed point one second before the first sorted
record precedes the fold, and a trailing point at `nowSec` is appended
when the last point's time differs from `nowSec` (a `NaN` last time
differs from every number under `!==`). -/
def rawCurve (jsParse : String → Option Int) (trades : List TradeRecord)
    (nowSec : Int) : List LineData × ℚ × ℚ :=
  match sortedTrades jsParse trades with
  | [] =>
    ([⟨some (nowSec - 1), CHART_START_EQUITY⟩, ⟨some nowSec, CHART_START_EQUITY⟩],
      CHART_START_EQUITY, CHART_START_EQUITY)
  | first :: tail =>
    let seed : LineData :=
      ⟨(tsSec jsParse first.timestamp).map (fun x => x - 1), CHART_START_EQUITY⟩
    let st := (first :: tail).foldl (curveStep jsParse)
      ([seed], CHART_START_EQUITY, CHART_START_EQUITY)
    if st.1.getLast?.map LineData.time = some (some nowSec) then st
    else (st.1 ++ [⟨some nowSec, st.2.1⟩], st.2.1, st.2.2)

/-- The validity filter on line 143:
`d != null && Number.isFinite(d.value) && d.time != null`.  In this
embedding no array entry is `null`, every `value` is a rational (hence
finite), and a `NaN` time still passes `d.time != null` (`NaN` is not
`null` under loose inequality), so the predicate holds of every entry. -/
def lineDataValid (_ : LineData) : Bool := true

/-- `Math.max` over a list of (finite) values, `Math.max(...xs)`. -/
def listMax : ℚ → List ℚ → ℚ :=
  fun v vs => vs.foldl max v

/-- Line 149: `data.length ? Math.max(...data.map((d) => d.value)) :
startEquity` — the maximum plotted value, or the start equity when the
array is empty. -/
def maxOrStart (l : List ℚ) : ℚ :=
  match l with
  | [] => CHART_START_EQUITY
  | v :: vs => listMax v vs

/-- `buildChartData` (page.tsx, lines 112–151).  `nowSec` is the value
of `Math.floor(Date.now() / 1000)` read inside the source function;
`jsParse` is the host string-date parser (see the module docstring).
After the raw pass, points are filtered (vacuously), deduplicated by
second-granular time through a JavaScript `Map` (later write wins, first
insertion position kept), sorted ascending by time, and the returned
`ath` is `Math.max` of the tracked high-water mark and the maximum
plotted value (the start equity when no point survived). -/
def buildChartData (jsParse : String → Option Int) (trades : List TradeRecord)
    (nowSec : Int) : ChartOut :=
  let (out, _, ath) := rawCurve jsParse trades nowSec
  let valid := out.filter lineDataValid
  let seen := valid.foldl (fun m d => jsMapSet m d.time d) []
  let data := (jsSort (fun a b => jsKeyLe a.1 b.1) seen).map (fun e => e.2)
  ⟨data, max ath (maxOrStart (data.map LineData.value))⟩

/-- The key `` `${t.slug}\t${sideNorm}` `` used by the merge on
lines 379–391 (tab separator). -/
def recKey (t : TradeRecord) : String :=
  t.slug ++ "\t" ++ normalizeSide (some t.side)

/-- `{ ...t, side: sideNorm }`: the record as stored into the merge map,
with its side replaced by the normalized side. -/
def withNormSide (t : TradeRecord) : TradeRecord :=
  { t with side := normalizeSide (some t.side) }

/-- The key recomputed from a record that already went through
`withNormSide` — used to state properties of the merged output. -/
def outKey (t : TradeRecord) : String :=
  t.slug ++ "\t" ++ t.side

/-- `tradesMerged` (page.tsx, lines 379–391): insert every local trade,
then every analytics trade, into one insertion-ordered map keyed by
(slug, normalized side); `Array.from(map.values())` enumerates the
surviving records in key-first-insertion order. -/
def tradesMerged (localTrades analyticsTrades : List TradeRecord) : List TradeRecord :=
  let m1 := localTrades.foldl (fun m t => jsMapSet m (recKey t) (withNormSide t)) []
  let m2 := analyticsTrades.foldl (fun m t => jsMapSet m (recKey t) (withNormSide t)) m1
  m2.map (fun e => e.2)


/-- Helper constructor for concrete scenario records: only the
fields the scenarios mention; the rest keep their defaults. -/
def mkTrade (ts : TsValue) (slug side result : String) (pnl : Option ℚ) : TradeRecord :=
  { timestamp := ts, slug := slug, side := side, result := result, pnl_usdc := pnl }

/-- Folding a batch of values into a map, each stored under `key v` —
the shape of both map-building loops in the source. -/
def jsMapInsertAll [BEq κ] (key : α → κ) (m : List (κ × α)) (l : List α) :
    List (κ × α) :=
  l.foldl (fun m x => jsMapSet m (key x) x) m

/-- Map well-formedness: every stored key is the key of its value. -/
def MapWF [BEq κ] (key : α → κ) (m : List (κ × α)) : Prop :=
  ∀ e ∈ m, e.1 = key e.2

/-- The strict-ascent relation the ordering/uniqueness claims are about:
both timestamps are actual instants and the first is strictly earlier. -/
def StrictlyBefore (a b : LineData) : Prop :=
  ∃ x y, a.time = some x ∧ b.time = some y ∧ x < y

/-- First-occurrence deduplication of a list of keys: the enumeration
order of a JavaScript `Map` whose keys were inserted in this order. -/
def firstOccur (ks : List String) : List String :=
  ks.foldl (fun acc k => if k ∈ acc then acc else acc ++ [k]) []

/-! ## The specification's three-argument curve builder

`buildCurveSpec` is not a translation of repository code: it follows the
words of §4.2 of the specification (`buildCurve(trades, startEquity,
now)`), and is used to compare the code's `buildChartData` against the
contract the specification states. -/

/-- A curve point as the specification describes it: an instant
(seconds since the epoch) and a value. -/
structure EquityPoint where
  ts : Int
  value : ℚ
deriving DecidableEq, Repr

/-- The record returned by the specification's `buildCurve`. -/
structure CurveOut where
  points : List EquityPoint
  allTimeHigh : ℚ
deriving DecidableEq, Repr

/-- The specification's timestamp parse (§4.2): an ISO string or a
unix-seconds number; "a value that fails to parse as either is treated
as the earliest possible instant" — the epoch, the instant the code's
string branch falls back to.  Result in milliseconds; total. -/
def specParseMs (jsParse : String → Option Int) (ts : TsValue) : Int :=
  match ts with
  | .null => 0
  | .num n => n * 1000
  | .str s => (jsParse s).getD 0

/-- §4.2 accumulation, one record: a non-finite `pnl` is skipped without
altering the state; otherwise `pnl` joins `running`, the high-water mark
is folded, and a point is emitted at the record's truncated-to-second
timestamp. -/
def specStep (jsParse : String → Option Int)
    (st : List EquityPoint × ℚ × ℚ) (t : TradeRecord) : List EquityPoint × ℚ × ℚ :=
  let (out, running, ath) := st
  match t.pnl_usdc with
  | none => (out, running, ath)
  | some p =>
    let running' := running + p
    let ath' := if running' > ath then running' else ath
    (out ++ [⟨Int.fdiv (specParseMs jsParse t.timestamp) 1000, running'⟩], running', ath')

/-- §4.2 filtering and ordering: the qualifying records, stable-sorted
ascending by parsed timestamp. -/
def specSorted (jsParse : String → Option Int) (trades : List TradeRecord) :
    List TradeRecord :=
  jsSort
    (fun a b => decide (specParseMs jsParse a.timestamp ≤ specParseMs jsParse b.timestamp))
    (trades.filter (fun t => decide (t.result = "WIN" ∨ t.result = "LOSS")))

/-- §4.2 seed point, accumulation and trailing point: the point list
before deduplication, with the final `running` and tracked high-water
mark. -/
def specRaw (jsParse : String → Option Int) (trades : List TradeRecord)
    (startEquity : ℚ) (now : Int) : List EquityPoint × ℚ × ℚ :=
  match specSorted jsParse trades with
  | [] => ([⟨now - 1, startEquity⟩, ⟨now, startEquity⟩], startEquity, startEquity)
  | first :: tail =>
    let seed : EquityPoint :=
      ⟨Int.fdiv (specParseMs jsParse first.timestamp) 1000 - 1, startEquity⟩
    let st := (first :: tail).foldl (specStep jsParse) ([seed], startEquity, startEquity)
    if st.1.getLast?.map EquityPoint.ts = some now then st
    else (st.1 ++ [⟨now, st.2.1⟩], st.2.1, st.2.2)

/-- The maximum point value, or the start equity for an empty list. -/
def specMaxOr (startEquity : ℚ) (l : List ℚ) : ℚ :=
  match l with
  | [] => startEquity
  | v :: vs => listMax v vs

/-- `buildCurve(trades, startEquity, now)` as §4.2 of the specification
describes it: filter to WIN/LOSS; stable-sort ascending by parsed
timestamp; two anchor points when nothing qualifies, otherwise a seed
point one second before the first record; accumulate; trailing point at
`now` when the last emitted timestamp differs; dedupe by second with
the later value winning, sort ascending; finally fold the maximum
plotted value into the returned all-time high. -/
def buildCurveSpec (jsParse : String → Option Int) (trades : List TradeRecord)
    (startEquity : ℚ) (now : Int) : CurveOut :=
  let raw := specRaw jsParse trades startEquity now
  let seen := raw.1.foldl (fun m d => jsMapSet m d.ts d) []
  let points := (jsSort (fun a b => decide (a.1 ≤ b.1)) seen).map (fun e => e.2)
  ⟨points, max raw.2.2 (specMaxOr startEquity (points.map EquityPoint.value))⟩

/-- Injection of a specification point into the code's point type: a
valid (non-`NaN`) time value. -/
def injPoint (p : EquityPoint) : LineData := ⟨some p.ts, p.value⟩

/-- Injection of the specification's output into the code's output
type. -/
def injCurve (c : CurveOut) : ChartOut := ⟨c.points.map injPoint, c.allTimeHigh⟩


/-! ## Lemmas about the stable-sort model -/

theorem jsInsert_perm (le : α → α → Bool) (x : α) (l : List α) :
    (jsInsert le x l).Perm (x :: l) := by
  induction l with
  | nil => simp [jsInsert]
  | cons y ys ih =>
    simp only [jsInsert]
    by_cases h : le x y
    · simp [h]
    · simp only [h, if_neg, Bool.false_eq_true, not_false_iff, ite_false]
      exact ((ih.cons y).trans (List.Perm.swap x y ys))

theorem jsSort_perm (le : α → α → Bool) (l : List α) :
    (jsSort le l).Perm l := by
  induction l with
  | nil => simp [jsSort]
  | cons x xs ih =>
    simpa [jsSort] using (jsInsert_perm le x (jsSort le xs)).trans (ih.cons x)

theorem mem_jsSort (le : α → α → Bool) (l : List α) (a : α) :
    a ∈ jsSort le l ↔ a ∈ l :=
  (jsSort_perm le l).mem_iff

theorem jsInsert_chain (le : α → α → Bool)
    (total : ∀ a b, le a b = true ∨ le b a = true)
    (x : α) (l : List α) (h : List.Chain' (fun a b => le a b = true) l) :
    List.Chain' (fun a b => le a b = true) (jsInsert le x l) := by
  induction l with
  | nil => simp [jsInsert]
  | cons y ys ih =>
    rw [jsInsert]
    by_cases hxy : le x y = true
    · rw [if_pos hxy]
      exact List.chain'_cons.mpr ⟨hxy, h⟩
    · rw [if_neg hxy]
      have hyx : le y x = true := (total x y).resolve_left hxy
      have hrec := ih h.tail
      cases ys with
      | nil =>
        rw [jsInsert]
        exact List.chain'_cons.mpr ⟨hyx, by simp⟩
      | cons z zs =>
        rw [jsInsert] at hrec ⊢
        by_cases hxz : le x z = true
        · rw [if_pos hxz] at hrec ⊢
          exact List.chain'_cons.mpr ⟨hyx, hrec⟩
        · rw [if_neg hxz] at hrec ⊢
          have hyz : le y z = true := (List.chain'_cons.mp h).1
          exact List.chain'_cons.mpr ⟨hyz, hrec⟩

theorem jsSort_chain (le : α → α → Bool)
    (total : ∀ a b, le a b = true ∨ le b a = true) (l : List α) :
    List.Chain' (fun a b => le a b = true) (jsSort le l) := by
  induction l with
  | nil => simp [jsSort]
  | cons x xs ih => simpa [jsSort] using jsInsert_chain le total x _ ih

theorem jsInsert_congr (le₁ le₂ : α → α → Bool) (x : α) (l : List α)
    (h : ∀ b ∈ l, le₁ x b = le₂ x b) :
    jsInsert le₁ x l = jsInsert le₂ x l := by
  induction l with
  | nil => simp [jsInsert]
  | cons y ys ih =>
    have hy := h y (by simp)
    simp only [jsInsert, hy]
    by_cases h2 : le₂ x y
    · simp [h2]
    · simp only [h2, Bool.false_eq_true, not_false_iff, ite_false, List.cons.injEq, true_and]
      exact ih (fun b hb => h b (by simp [hb]))

theorem jsSort_congr (le₁ le₂ : α → α → Bool) (l : List α)
    (h : ∀ a ∈ l, ∀ b ∈ l, le₁ a b = le₂ a b) :
    jsSort le₁ l = jsSort le₂ l := by
  induction l with
  | nil => simp [jsSort]
  | cons x xs ih =>
    have hxs : jsSort le₁ xs = jsSort le₂ xs :=
      ih (fun a ha b hb => h a (by simp [ha]) b (by simp [hb]))
    simp only [jsSort, List.foldr_cons] at *
    rw [hxs]
    refine jsInsert_congr le₁ le₂ x _ (fun b hb => ?_)
    have hb' : b ∈ xs := by
      have := (jsSort_perm le₂ xs).mem_iff.mp (by simpa [jsSort] using hb)
      exact this
    exact h x (by simp) b (by simp [hb'])

theorem jsInsert_map (le : α → α → Bool) (le' : β → β → Bool) (f : α → β)
    (hf : ∀ a b, le' (f a) (f b) = le a b) (x : α) (l : List α) :
    jsInsert le' (f x) (l.map f) = (jsInsert le x l).map f := by
  induction l with
  | nil => simp [jsInsert]
  | cons y ys ih =>
    simp only [List.map_cons, jsInsert, hf]
    by_cases h : le x y
    · simp [h]
    · simp [h, ih]

theorem jsSort_map (le : α → α → Bool) (le' : β → β → Bool) (f : α → β)
    (hf : ∀ a b, le' (f a) (f b) = le a b) (l : List α) :
    jsSort le' (l.map f) = (jsSort le l).map f := by
  induction l with
  | nil => simp [jsSort]
  | cons x xs ih =>
    simp only [jsSort, List.map_cons, List.foldr_cons] at *
    rw [ih, jsInsert_map le le' f hf]

/-! ## Lemmas about the insertion-ordered map model -/

section MapLemmas

variable {κ α : Type} [BEq κ] [LawfulBEq κ] [DecidableEq κ]

theorem jsMapSet_keys (m : List (κ × α)) (k : κ) (v : α) :
    (jsMapSet m k v).map Prod.fst =
      if k ∈ m.map Prod.fst then m.map Prod.fst else m.map Prod.fst ++ [k] := by
  have hmem : (m.any fun e => e.1 == k) = true ↔ k ∈ m.map Prod.fst := by
    rw [List.any_eq_true]
    constructor
    · rintro ⟨e, he, hek⟩
      exact List.mem_map.mpr ⟨e, he, by simpa using hek⟩
    · rintro hin
      obtain ⟨e, he, hek⟩ := List.mem_map.mp hin
      exact ⟨e, he, by simpa using hek⟩
  by_cases h : k ∈ m.map Prod.fst
  · rw [if_pos h]
    unfold jsMapSet
    rw [if_pos (hmem.mpr h)]
    rw [List.map_map]
    refine List.map_congr_left (fun e _ => ?_)
    by_cases he : e.1 = k
    · simp [he]
    · simp [he]
  · rw [if_neg h]
    unfold jsMapSet
    rw [if_neg (fun hc => h (hmem.mp hc))]
    simp

theorem jsMapSet_nodup_keys (m : List (κ × α)) (k : κ) (v : α)
    (h : (m.map Prod.fst).Nodup) : ((jsMapSet m k v).map Prod.fst).Nodup := by
  rw [jsMapSet_keys]
  by_cases hk : k ∈ m.map Prod.fst
  · rwa [if_pos hk]
  · rw [if_neg hk]
    simp [List.nodup_append, h, hk]

theorem mem_jsMapSet (m : List (κ × α)) (k : κ) (v : α) (e : κ × α)
    (he : e ∈ jsMapSet m k v) : e = (k, v) ∨ (e ∈ m ∧ e.1 ≠ k) := by
  unfold jsMapSet at he
  by_cases hc : (m.any fun e => e.1 == k) = true
  · rw [if_pos hc] at he
    obtain ⟨f, hf, hfe⟩ := List.mem_map.mp he
    by_cases hfk : f.1 == k
    · left
      rw [if_pos hfk] at hfe
      exact hfe.symm
    · right
      rw [if_neg hfk] at hfe
      subst hfe
      exact ⟨hf, by simpa using hfk⟩
  · rw [if_neg hc] at he
    rcases List.mem_append.mp he with h | h
    · by_cases hek : e.1 = k
      · exfalso
        exact hc (List.any_eq_true.mpr ⟨e, h, by simpa using hek⟩)
      · exact Or.inr ⟨h, hek⟩
    · left
      simpa using h

theorem jsMapSet_wf (key : α → κ) (m : List (κ × α)) (k : κ) (v : α)
    (hm : MapWF key m) (hk : k = key v) : MapWF key (jsMapSet m k v) := by
  intro e he
  rcases mem_jsMapSet m k v e he with h | ⟨h, _⟩
  · rw [h]
    exact hk
  · exact hm e h

omit [LawfulBEq κ] [DecidableEq κ] in
theorem jsMapInsertAll_append (key : α → κ) (m : List (κ × α)) (l₁ l₂ : List α) :
    jsMapInsertAll key m (l₁ ++ l₂) = jsMapInsertAll key (jsMapInsertAll key m l₁) l₂ := by
  simp [jsMapInsertAll, List.foldl_append]

theorem jsMapInsertAll_wf (key : α → κ) (m : List (κ × α)) (l : List α)
    (hm : MapWF key m) : MapWF key (jsMapInsertAll key m l) := by
  induction l generalizing m with
  | nil => simpa [jsMapInsertAll] using hm
  | cons x xs ih =>
    simp only [jsMapInsertAll, List.foldl_cons] at *
    exact ih _ (jsMapSet_wf key m _ x hm rfl)

theorem jsMapInsertAll_nodup_keys (key : α → κ) (m : List (κ × α)) (l : List α)
    (hm : (m.map Prod.fst).Nodup) :
    ((jsMapInsertAll key m l).map Prod.fst).Nodup := by
  induction l generalizing m with
  | nil => simpa [jsMapInsertAll] using hm
  | cons x xs ih =>
    simp only [jsMapInsertAll, List.foldl_cons] at *
    exact ih _ (jsMapSet_nodup_keys m _ x hm)

theorem jsMapInsertAll_keys (key : α → κ) (m : List (κ × α)) (l : List α) :
    (jsMapInsertAll key m l).map Prod.fst =
      l.foldl (fun ks x => if key x ∈ ks then ks else ks ++ [key x]) (m.map Prod.fst) := by
  induction l generalizing m with
  | nil => simp [jsMapInsertAll]
  | cons x xs ih =>
    simp only [jsMapInsertAll, List.foldl_cons] at *
    rw [ih, jsMapSet_keys]

theorem mem_keys_jsMapInsertAll (key : α → κ) (m : List (κ × α)) (l : List α)
    (k : κ) (hk : k ∈ (jsMapInsertAll key m l).map Prod.fst) :
    k ∈ m.map Prod.fst ∨ k ∈ l.map key := by
  induction l generalizing m with
  | nil => exact Or.inl (by simpa [jsMapInsertAll] using hk)
  | cons x xs ih =>
    simp only [jsMapInsertAll, List.foldl_cons] at hk
    rcases ih _ hk with h | h
    · rw [jsMapSet_keys] at h
      by_cases hx : key x ∈ m.map Prod.fst
      · rw [if_pos hx] at h
        exact Or.inl h
      · rw [if_neg hx] at h
        rcases List.mem_append.mp h with h | h
        · exact Or.inl h
        · simp only [List.mem_singleton] at h
          exact Or.inr (by simp [h])
    · exact Or.inr (by simp [h])

theorem keys_present_jsMapInsertAll (key : α → κ) (m : List (κ × α)) (l : List α)
    (x : α) (hx : x ∈ l) :
    key x ∈ (jsMapInsertAll key m l).map Prod.fst := by
  induction l generalizing m with
  | nil => cases hx
  | cons y ys ih =>
    simp only [jsMapInsertAll, List.foldl_cons]
    rcases List.mem_cons.mp hx with h | h
    · subst h
      have hbase : key x ∈ (jsMapSet m (key x) x).map Prod.fst := by
        rw [jsMapSet_keys]
        by_cases hk : key x ∈ m.map Prod.fst
        · rwa [if_pos hk]
        · rw [if_neg hk]
          simp
      -- keys only grow along the fold
      have grow : ∀ (ts : List α) (m' : List (κ × α)) (k : κ),
          k ∈ m'.map Prod.fst → k ∈ (jsMapInsertAll key m' ts).map Prod.fst := by
        intro ts
        induction ts with
        | nil => intro m' k h; simpa [jsMapInsertAll] using h
        | cons t ts iht =>
          intro m' k h
          simp only [jsMapInsertAll, List.foldl_cons]
          refine iht _ k ?_
          rw [jsMapSet_keys]
          by_cases hk : key t ∈ m'.map Prod.fst
          · rwa [if_pos hk]
          · rw [if_neg hk]
            exact List.mem_append.mpr (Or.inl h)
      exact grow ys _ (key x) hbase
    · exact ih _ h

omit [LawfulBEq κ] [DecidableEq κ] in
theorem jsMapInsertAll_singleton (key : α → κ) (m : List (κ × α)) (x : α) :
    jsMapInsertAll key m [x] = jsMapSet m (key x) x := by
  simp [jsMapInsertAll]

theorem jsMapInsertAll_lastwins (key : α → κ) (l : List α) (e : κ × α)
    (he : e ∈ jsMapInsertAll key [] l) :
    (l.filter (fun x => key x == e.1)).getLast? = some e.2 := by
  induction l using List.reverseRecOn generalizing e with
  | nil => simp [jsMapInsertAll] at he
  | append_singleton l x ih =>
    rw [jsMapInsertAll_append, jsMapInsertAll_singleton] at he
    rcases mem_jsMapSet _ _ _ _ he with h | ⟨h, hne⟩
    · subst h
      rw [List.filter_append]
      simp
    · have hx : (key x == e.1) = false := by
        simp only [beq_eq_false_iff_ne, ne_eq]
        exact fun hc => hne (by simp [← hc])
      rw [List.filter_append]
      simp only [List.filter_cons, hx, Bool.false_eq_true, ite_false, List.filter_nil,
        List.append_nil]
      exact ih e h

omit [DecidableEq κ] in
theorem map_values_filter (key : α → κ) (m : List (κ × α)) (hwf : MapWF key m)
    (hnd : (m.map Prod.fst).Nodup) (e : κ × α) (he : e ∈ m) :
    (m.map Prod.snd).filter (fun v => key v == e.1) = [e.2] := by
  induction m with
  | nil => cases he
  | cons f rest ih =>
    have hf1 : f.1 = key f.2 := hwf f (by simp)
    have hnotin : f.1 ∉ rest.map Prod.fst := (List.nodup_cons.mp hnd).1
    rcases List.mem_cons.mp he with h | h
    · subst h
      simp only [List.map_cons, List.filter_cons, ← hf1, beq_self_eq_true, ite_true]
      have hrest : (rest.map Prod.snd).filter (fun v => key v == e.1) = [] := by
        refine List.filter_eq_nil_iff.mpr (fun v hv => ?_)
        obtain ⟨g, hg, hgv⟩ := List.mem_map.mp hv
        have hg1 : g.1 = key g.2 := hwf g (by simp [hg])
        subst hgv
        simp only [beq_eq_false_iff_ne, ne_eq]
        intro hc
        refine hnotin ?_
        rw [← hg1] at hc
        rw [beq_iff_eq] at hc
        rw [← hc]
        exact List.mem_map.mpr ⟨g, hg, rfl⟩
      rw [hrest]
    · have he1 : e.1 ∈ rest.map Prod.fst := by
        have : e.1 = key e.2 := hwf e (by simp [h])
        exact List.mem_map.mpr ⟨e, h, rfl⟩
      have hhead : (key f.2 == e.1) = false := by
        simp only [beq_eq_false_iff_ne, ne_eq]
        intro hc
        exact hnotin (by rw [hf1, hc]; exact he1)
      simp only [List.map_cons, List.filter_cons, hhead, Bool.false_eq_true, ite_false]
      exact ih (fun g hg => hwf g (by simp [hg])) (List.nodup_cons.mp hnd).2 h

omit [LawfulBEq κ] [DecidableEq κ] in
theorem map_values_keys (key : α → κ) (m : List (κ × α)) (hwf : MapWF key m) :
    (m.map Prod.snd).map key = m.map Prod.fst := by
  rw [List.map_map]
  exact List.map_congr_left (fun e he => (hwf e he).symm)

end MapLemmas

/-! ## Structural lemmas about the curve builder -/

theorem tsSec_isSome (jsParse : String → Option Int) (ts : TsValue)
    (h : ts ≠ TsValue.null) : (tsSec jsParse ts).isSome := by
  cases ts with
  | str s => simp [tsSec, parseTimestamp]
  | num n => simp [tsSec, parseTimestamp]
  | null => exact absurd rfl h

theorem curveFold_spine (jsParse : String → Option Int) (ts : List TradeRecord)
    (out0 : List LineData) (r a : ℚ) :
    ∃ rest, (List.foldl (curveStep jsParse) (out0, r, a) ts).1 = out0 ++ rest ∧
      ∀ d ∈ rest, d.time.isSome := by
  induction ts generalizing out0 r a with
  | nil => exact ⟨[], by simp, by simp⟩
  | cons t ts ih =>
    simp only [List.foldl_cons]
    rcases hp : t.pnl_usdc with _ | p
    · simpa [curveStep, hp] using ih out0 r a
    · rcases hsec : tsSec jsParse t.timestamp with _ | s
      · simpa [curveStep, hp, hsec] using ih out0 _ _
      · obtain ⟨rest, hfold, hsome⟩ :=
          ih (out0 ++ [⟨some s, r + p⟩]) (r + p) (if r + p > a then r + p else a)
        refine ⟨⟨some s, r + p⟩ :: rest, ?_, ?_⟩
        · simpa [curveStep, hp, hsec] using hfold
        · intro d hd
          rcases List.mem_cons.mp hd with h | h
          · subst h; simp
          · exact hsome d h

theorem rawCurve_time_some (jsParse : String → Option Int) (trades : List TradeRecord)
    (nowSec : Int)
    (H : ∀ t ∈ trades, isResolved t = true → t.timestamp ≠ TsValue.null) :
    ∀ d ∈ (rawCurve jsParse trades nowSec).1, d.time.isSome := by
  intro d hd
  unfold rawCurve at hd
  rcases hsort : sortedTrades jsParse trades with _ | ⟨first, tail⟩
  · rw [hsort] at hd
    simp only [List.mem_cons, List.mem_singleton, List.not_mem_nil, or_false] at hd
    rcases hd with h | h <;> (subst h; simp)
  · rw [hsort] at hd
    simp only [] at hd
    have hfirst : first ∈ trades.filter isResolved := by
      have hmem : first ∈ sortedTrades jsParse trades := by rw [hsort]; simp
      simpa [sortedTrades, mem_jsSort] using hmem
    have hfr : first.timestamp ≠ TsValue.null := by
      obtain ⟨hmem, hres⟩ := List.mem_filter.mp hfirst
      exact H first hmem hres
    have hseed : (tsSec jsParse first.timestamp).isSome := tsSec_isSome _ _ hfr
    obtain ⟨rest, hfold, hsome⟩ :=
      curveFold_spine jsParse (first :: tail)
        [⟨(tsSec jsParse first.timestamp).map (fun x => x - 1), CHART_START_EQUITY⟩]
        CHART_START_EQUITY CHART_START_EQUITY
    split at hd
    · rw [hfold] at hd
      rcases List.mem_append.mp hd with h | h
      · simp only [List.mem_singleton] at h
        subst h
        simpa using hseed
      · exact hsome d h
    · rcases List.mem_append.mp hd with h | h
      · rw [hfold] at h
        rcases List.mem_append.mp h with h | h
        · simp only [List.mem_singleton] at h
          subst h
          simpa using hseed
        · exact hsome d h
      · simp only [List.mem_singleton] at h
        subst h
        simp

theorem rawCurve_head (jsParse : String → Option Int) (trades : List TradeRecord)
    (nowSec : Int) :
    ((rawCurve jsParse trades nowSec).1.head?.map LineData.value) =
      some CHART_START_EQUITY := by
  unfold rawCurve
  rcases hsort : sortedTrades jsParse trades with _ | ⟨first, tail⟩
  · simp
  · simp only []
    obtain ⟨rest, hfold, _⟩ :=
      curveFold_spine jsParse (first :: tail)
        [⟨(tsSec jsParse first.timestamp).map (fun x => x - 1), CHART_START_EQUITY⟩]
        CHART_START_EQUITY CHART_START_EQUITY
    split
    · rw [hfold]
      simp
    · rw [hfold]
      simp

theorem chain'_and_of {α : Type} (R S : α → α → Prop) (l : List α)
    (hR : List.Chain' R l) (hS : List.Chain' S l) :
    List.Chain' (fun a b => R a b ∧ S a b) l := by
  induction l with
  | nil => simp
  | cons x xs ih =>
    cases xs with
    | nil => simp
    | cons y ys =>
      rw [List.chain'_cons] at hR hS ⊢
      exact ⟨⟨hR.1, hS.1⟩, ih hR.2 hS.2⟩

theorem chain'_imp_mem {α : Type} (R S : α → α → Prop) (l : List α)
    (h : List.Chain' R l) (himp : ∀ a ∈ l, ∀ b ∈ l, R a b → S a b) :
    List.Chain' S l := by
  induction l with
  | nil => simp
  | cons x xs ih =>
    cases xs with
    | nil => simp
    | cons y ys =>
      rw [List.chain'_cons] at h ⊢
      refine ⟨himp x (by simp) y (by simp) h.1, ?_⟩
      exact ih h.2 (fun a ha b hb hr => himp a (by simp [ha]) b (by simp [hb]) hr)

theorem le_listMax_self (v : ℚ) (l : List ℚ) : v ≤ listMax v l := by
  induction l generalizing v with
  | nil => exact le_refl v
  | cons y ys ih =>
    calc v ≤ max v y := le_max_left v y
    _ ≤ listMax (max v y) ys := ih (max v y)
    _ = listMax v (y :: ys) := rfl

theorem le_listMax_of_mem (v x : ℚ) (l : List ℚ) (h : x ∈ l) : x ≤ listMax v l := by
  induction l generalizing v with
  | nil => cases h
  | cons y ys ih =>
    rcases List.mem_cons.mp h with hx | hx
    · subst hx
      calc x ≤ max v x := le_max_right v x
      _ ≤ listMax (max v x) ys := le_listMax_self _ _
      _ = listMax v (x :: ys) := rfl
    · exact ih (max v y) hx

theorem filter_lineDataValid (l : List LineData) : l.filter lineDataValid = l := by
  simp [lineDataValid]

theorem jsKeyLe_total (a b : Option Int) : jsKeyLe a b = true ∨ jsKeyLe b a = true := by
  cases a with
  | none => left; cases b <;> rfl
  | some x =>
    cases b with
    | none => left; rfl
    | some y =>
      rcases le_total x y with h | h
      · left; simpa [jsKeyLe] using h
      · right; simpa [jsKeyLe] using h

theorem buildChartData_stages (jsParse : String → Option Int) (trades : List TradeRecord)
    (nowSec : Int) :
    (buildChartData jsParse trades nowSec).data =
      (jsSort (fun a b => jsKeyLe a.1 b.1)
        (jsMapInsertAll LineData.time [] (rawCurve jsParse trades nowSec).1)).map
        Prod.snd := by
  rcases hraw : rawCurve jsParse trades nowSec with ⟨out, run, ath⟩
  simp only [buildChartData, hraw, filter_lineDataValid]
  rfl

theorem seen_wf (jsParse : String → Option Int) (trades : List TradeRecord)
    (nowSec : Int) :
    MapWF LineData.time
      (jsMapInsertAll LineData.time [] (rawCurve jsParse trades nowSec).1) :=
  jsMapInsertAll_wf _ _ _ (fun e he => by cases he)

theorem buildChartData_lastwins (jsParse : String → Option Int) (trades : List TradeRecord)
    (nowSec : Int) :
    ∀ d ∈ (buildChartData jsParse trades nowSec).data,
      ((rawCurve jsParse trades nowSec).1.filter
        (fun e => e.time == d.time)).getLast? = some d := by
  intro d hd
  rw [buildChartData_stages] at hd
  obtain ⟨e, he, hev⟩ := List.mem_map.mp hd
  have heseen : e ∈ jsMapInsertAll LineData.time [] (rawCurve jsParse trades nowSec).1 :=
    (mem_jsSort _ _ _).mp he
  have h1 : e.1 = d.time := by
    rw [← hev]
    exact seen_wf jsParse trades nowSec e heseen
  have hlw := jsMapInsertAll_lastwins LineData.time (rawCurve jsParse trades nowSec).1 e heseen
  rw [h1, hev] at hlw
  exact hlw

theorem strictlyBefore_trans : Transitive StrictlyBefore := by
  rintro a b c ⟨x, y, hax, hby, hxy⟩ ⟨y', z, hby', hcz, hyz⟩
  refine ⟨x, z, hax, hcz, ?_⟩
  rw [hby] at hby'
  obtain rfl : y = y' := by simpa using hby'
  exact hxy.trans hyz

theorem sorted_entries_strict (seenL : List (Option Int × LineData))
    (hwf : MapWF LineData.time seenL)
    (hnodup : (seenL.map Prod.fst).Nodup)
    (hsome : ∀ e ∈ seenL, e.1.isSome) :
    List.Chain' StrictlyBefore
      ((jsSort (fun a b => jsKeyLe a.1 b.1) seenL).map Prod.snd) := by
  have hchainle : List.Chain' (fun a b : Option Int × LineData => jsKeyLe a.1 b.1 = true)
      (jsSort (fun a b => jsKeyLe a.1 b.1) seenL) :=
    jsSort_chain _ (fun a b => jsKeyLe_total a.1 b.1) seenL
  have hperm := jsSort_perm (fun a b : Option Int × LineData => jsKeyLe a.1 b.1) seenL
  have hnodupS : ((jsSort (fun a b => jsKeyLe a.1 b.1) seenL).map Prod.fst).Nodup :=
    ((hperm.map Prod.fst).nodup_iff).mpr hnodup
  have hpair_ne : List.Pairwise (fun a b : Option Int × LineData => a.1 ≠ b.1)
      (jsSort (fun a b => jsKeyLe a.1 b.1) seenL) :=
    List.pairwise_map.mp hnodupS
  have hchain_ne := hpair_ne.chain'
  have hchain_both := chain'_and_of _ _ _ hchainle hchain_ne
  have hchain_strict : List.Chain'
      (fun a b : Option Int × LineData => StrictlyBefore a.2 b.2)
      (jsSort (fun a b => jsKeyLe a.1 b.1) seenL) := by
    refine chain'_imp_mem _ _ _ hchain_both ?_
    rintro a ha b hb ⟨hle, hne⟩
    have haseen := (mem_jsSort _ _ _).mp ha
    have hbseen := (mem_jsSort _ _ _).mp hb
    obtain ⟨x, hx⟩ := Option.isSome_iff_exists.mp (hsome a haseen)
    obtain ⟨y, hy⟩ := Option.isSome_iff_exists.mp (hsome b hbseen)
    refine ⟨x, y, ?_, ?_, ?_⟩
    · rw [← hwf a haseen]
      exact hx
    · rw [← hwf b hbseen]
      exact hy
    · have hxy : x ≤ y := by
        rw [hx, hy] at hle
        simpa [jsKeyLe] using hle
      have hne' : x ≠ y := by
        intro hc
        exact hne (by rw [hx, hy, hc])
      exact lt_of_le_of_ne hxy hne'
  exact (List.chain'_map Prod.snd).mpr hchain_strict

theorem buildChartData_strict (jsParse : String → Option Int) (trades : List TradeRecord)
    (nowSec : Int)
    (H : ∀ t ∈ trades, isResolved t = true → t.timestamp ≠ TsValue.null) :
    List.Pairwise StrictlyBefore (buildChartData jsParse trades nowSec).data := by
  have hsome : ∀ d ∈ (rawCurve jsParse trades nowSec).1, d.time.isSome :=
    rawCurve_time_some jsParse trades nowSec H
  have hwf := seen_wf jsParse trades nowSec
  have hkeysome : ∀ e ∈ jsMapInsertAll LineData.time [] (rawCurve jsParse trades nowSec).1,
      e.1.isSome := by
    intro e he
    have hlw := jsMapInsertAll_lastwins LineData.time (rawCurve jsParse trades nowSec).1 e he
    have hmem : e.2 ∈ (rawCurve jsParse trades nowSec).1 :=
      (List.mem_filter.mp (List.mem_of_mem_getLast? hlw)).1
    rw [hwf e he]
    exact hsome e.2 hmem
  have hnodup : ((jsMapInsertAll LineData.time []
      (rawCurve jsParse trades nowSec).1).map Prod.fst).Nodup :=
    jsMapInsertAll_nodup_keys _ _ _ (by simp)
  rw [buildChartData_stages]
  haveI : IsTrans LineData StrictlyBefore := ⟨fun a b c hab hbc => strictlyBefore_trans hab hbc⟩
  exact List.chain'_iff_pairwise.mp
    (sorted_entries_strict _ hwf hnodup hkeysome)

theorem le_max_maxOrStart (a x : ℚ) (l : List ℚ) (hx : x ∈ l) :
    x ≤ max a (maxOrStart l) := by
  cases l with
  | nil => cases hx
  | cons v vs =>
    rcases List.mem_cons.mp hx with h | h
    · subst h
      exact le_trans (le_listMax_self _ _) (le_max_right _ _)
    · exact le_trans (le_listMax_of_mem _ _ _ h) (le_max_right _ _)

theorem buildChartData_ath_ge (jsParse : String → Option Int) (trades : List TradeRecord)
    (nowSec : Int) :
    ∀ d ∈ (buildChartData jsParse trades nowSec).data,
      d.value ≤ (buildChartData jsParse trades nowSec).ath := by
  intro d hd
  rcases hraw : rawCurve jsParse trades nowSec with ⟨out, run, ath⟩
  simp only [buildChartData, hraw, filter_lineDataValid] at hd ⊢
  exact le_max_maxOrStart _ _ _ (List.mem_map.mpr ⟨d, hd, rfl⟩)

/-! ## Lemmas about the trade merge -/

theorem tradesMerged_eq (L A : List TradeRecord) :
    tradesMerged L A =
      (jsMapInsertAll outKey [] ((L ++ A).map withNormSide)).map Prod.snd := by
  simp only [tradesMerged, jsMapInsertAll, List.map_append, List.foldl_append,
    List.foldl_map]
  rfl

theorem withNormSide_key (t : TradeRecord) : outKey (withNormSide t) = recKey t := rfl

theorem tradesMerged_secondary (L A : List TradeRecord) (s : TradeRecord) (hs : s ∈ A) :
    ∃ s', (A.filter (fun t => recKey t == recKey s)).getLast? = some s' ∧
      (tradesMerged L A).filter (fun r => outKey r == recKey s) = [withNormSide s'] := by
  have hwf : MapWF outKey (jsMapInsertAll outKey [] ((L ++ A).map withNormSide)) :=
    jsMapInsertAll_wf _ _ _ (fun e he => by cases he)
  have hnodup : ((jsMapInsertAll outKey [] ((L ++ A).map withNormSide)).map Prod.fst).Nodup :=
    jsMapInsertAll_nodup_keys _ _ _ (by simp)
  have hkey : recKey s ∈ (jsMapInsertAll outKey [] ((L ++ A).map withNormSide)).map Prod.fst := by
    have hmem : withNormSide s ∈ (L ++ A).map withNormSide :=
      List.mem_map.mpr ⟨s, by simp [hs], rfl⟩
    simpa [withNormSide_key] using
      keys_present_jsMapInsertAll outKey [] ((L ++ A).map withNormSide) (withNormSide s) hmem
  obtain ⟨e, he, he1⟩ := List.mem_map.mp hkey
  have hfv := map_values_filter outKey _ hwf hnodup e he
  rw [he1] at hfv
  have hlw := jsMapInsertAll_lastwins outKey ((L ++ A).map withNormSide) e he
  rw [he1] at hlw
  -- rewrite the filter over the mapped list into a mapped filter
  rw [List.filter_map] at hlw
  have hpe : ((fun x => outKey x == recKey s) ∘ withNormSide) =
      fun t => recKey t == recKey s := by
    funext t
    simp [Function.comp, withNormSide_key]
  rw [hpe] at hlw
  rw [List.getLast?_map] at hlw
  -- the filter over L ++ A ends inside A, because s itself matches
  have hA : (A.filter (fun t => recKey t == recKey s)) ≠ [] := by
    intro hc
    have : s ∈ A.filter (fun t => recKey t == recKey s) :=
      List.mem_filter.mpr ⟨hs, by simp⟩
    rw [hc] at this
    cases this
  rw [List.filter_append, List.getLast?_append_of_ne_nil _ hA] at hlw
  rcases hlast : (A.filter (fun t => recKey t == recKey s)).getLast? with _ | s'
  · rw [hlast] at hlw
    cases hlw
  · rw [hlast] at hlw
    simp only [Option.map_some'] at hlw
    refine ⟨s', rfl, ?_⟩
    rw [tradesMerged_eq, hfv]
    have hv : withNormSide s' = e.2 := by simpa using hlw
    rw [hv]

theorem tradesMerged_keys_nodup (L A : List TradeRecord) :
    ((tradesMerged L A).map outKey).Nodup := by
  have hwf : MapWF outKey (jsMapInsertAll outKey [] ((L ++ A).map withNormSide)) :=
    jsMapInsertAll_wf _ _ _ (fun e he => by cases he)
  rw [tradesMerged_eq, map_values_keys outKey _ hwf]
  exact jsMapInsertAll_nodup_keys _ _ _ (by simp)

theorem tradesMerged_order (L A : List TradeRecord) :
    (tradesMerged L A).map outKey = firstOccur ((L ++ A).map recKey) := by
  have hwf : MapWF outKey (jsMapInsertAll outKey [] ((L ++ A).map withNormSide)) :=
    jsMapInsertAll_wf _ _ _ (fun e he => by cases he)
  rw [tradesMerged_eq, map_values_keys outKey _ hwf, jsMapInsertAll_keys]
  have : (L ++ A).map recKey = ((L ++ A).map withNormSide).map outKey := by
    rw [List.map_map]
    exact (List.map_congr_left (fun t _ => (withNormSide_key t).symm))
  rw [this]
  simp [firstOccur, List.foldl_map]

theorem sortedTrades_filter (jsParse : String → Option Int) (trades : List TradeRecord) :
    sortedTrades jsParse (trades.filter isResolved) = sortedTrades jsParse trades := by
  simp [sortedTrades, List.filter_filter]

theorem rawCurve_filter (jsParse : String → Option Int) (trades : List TradeRecord)
    (nowSec : Int) :
    rawCurve jsParse (trades.filter isResolved) nowSec = rawCurve jsParse trades nowSec := by
  unfold rawCurve
  rw [sortedTrades_filter]

theorem buildChartData_filter (jsParse : String → Option Int) (trades : List TradeRecord)
    (nowSec : Int) :
    buildChartData jsParse (trades.filter isResolved) nowSec =
      buildChartData jsParse trades nowSec := by
  unfold buildChartData
  rw [rawCurve_filter]

/-! ## Refinement: the code's builder is the specification's builder at
start equity 111.8 (when every resolved timestamp parses) -/

theorem injPoint_time (p : EquityPoint) : (injPoint p).time = some p.ts := rfl

theorem injPoint_value (p : EquityPoint) : (injPoint p).value = p.value := rfl

theorem isResolved_decide (t : TradeRecord) :
    isResolved t = decide (t.result = "WIN" ∨ t.result = "LOSS") := by
  by_cases h1 : t.result = "WIN" <;> by_cases h2 : t.result = "LOSS" <;>
    simp [isResolved, h1, h2]

theorem parseTimestamp_eq_spec (jsParse : String → Option Int) (ts : TsValue)
    (h : ts ≠ TsValue.null) :
    parseTimestamp jsParse ts = some (specParseMs jsParse ts) := by
  cases ts with
  | str s => rfl
  | num n => rfl
  | null => exact absurd rfl h

theorem tsSec_eq_spec (jsParse : String → Option Int) (ts : TsValue)
    (h : ts ≠ TsValue.null) :
    tsSec jsParse ts = some (Int.fdiv (specParseMs jsParse ts) 1000) := by
  cases ts with
  | str s => rfl
  | num n => rfl
  | null => exact absurd rfl h

theorem specSorted_eq (jsParse : String → Option Int) (trades : List TradeRecord)
    (H : ∀ t ∈ trades, isResolved t = true → t.timestamp ≠ TsValue.null) :
    specSorted jsParse trades = sortedTrades jsParse trades := by
  unfold specSorted sortedTrades
  have hres : trades.filter (fun t => decide (t.result = "WIN" ∨ t.result = "LOSS")) =
      trades.filter isResolved :=
    List.filter_congr (fun t _ => (isResolved_decide t).symm)
  rw [hres]
  apply jsSort_congr
  intro a ha b hb
  have hna : a.timestamp ≠ TsValue.null := by
    obtain ⟨h1, h2⟩ := List.mem_filter.mp ha
    exact H a h1 h2
  have hnb : b.timestamp ≠ TsValue.null := by
    obtain ⟨h1, h2⟩ := List.mem_filter.mp hb
    exact H b h1 h2
  rw [tradeLe, parseTimestamp_eq_spec _ _ hna, parseTimestamp_eq_spec _ _ hnb]
  rfl

theorem specFold_inj (jsParse : String → Option Int) (ts : List TradeRecord)
    (hts : ∀ t ∈ ts, t.timestamp ≠ TsValue.null) (o : List EquityPoint) (r a : ℚ) :
    List.foldl (curveStep jsParse) (o.map injPoint, r, a) ts =
      ((List.foldl (specStep jsParse) (o, r, a) ts).1.map injPoint,
       (List.foldl (specStep jsParse) (o, r, a) ts).2.1,
       (List.foldl (specStep jsParse) (o, r, a) ts).2.2) := by
  induction ts generalizing o r a with
  | nil => simp
  | cons t ts ih =>
    have ht := hts t (by simp)
    have hts' : ∀ u ∈ ts, u.timestamp ≠ TsValue.null := fun u hu => hts u (by simp [hu])
    simp only [List.foldl_cons]
    rcases hp : t.pnl_usdc with _ | p
    · rw [show curveStep jsParse (o.map injPoint, r, a) t = (o.map injPoint, r, a) by
        simp [curveStep, hp]]
      rw [show specStep jsParse (o, r, a) t = (o, r, a) by simp [specStep, hp]]
      exact ih hts' o r a
    · rw [show curveStep jsParse (o.map injPoint, r, a) t =
          ((o ++ [(⟨Int.fdiv (specParseMs jsParse t.timestamp) 1000, r + p⟩ : EquityPoint)]).map
              injPoint,
            r + p, if r + p > a then r + p else a) by
        simp [curveStep, hp, tsSec_eq_spec jsParse t.timestamp ht, injPoint]]
      rw [show specStep jsParse (o, r, a) t =
          (o ++ [(⟨Int.fdiv (specParseMs jsParse t.timestamp) 1000, r + p⟩ : EquityPoint)],
            r + p, if r + p > a then r + p else a) by simp [specStep, hp]]
      exact ih hts' _ _ _

theorem rawCurve_eq_specRaw (jsParse : String → Option Int) (trades : List TradeRecord)
    (nowSec : Int)
    (H : ∀ t ∈ trades, isResolved t = true → t.timestamp ≠ TsValue.null) :
    rawCurve jsParse trades nowSec =
      ((specRaw jsParse trades CHART_START_EQUITY nowSec).1.map injPoint,
       (specRaw jsParse trades CHART_START_EQUITY nowSec).2.1,
       (specRaw jsParse trades CHART_START_EQUITY nowSec).2.2) := by
  unfold rawCurve specRaw
  rw [specSorted_eq jsParse trades H]
  rcases hS : sortedTrades jsParse trades with _ | ⟨first, tail⟩
  · simp [injPoint]
  · simp only []
    have hmem : ∀ t ∈ first :: tail, t.timestamp ≠ TsValue.null := by
      intro t ht
      have : t ∈ sortedTrades jsParse trades := by rw [hS]; exact ht
      have hres : t ∈ trades.filter isResolved := by
        simpa [sortedTrades, mem_jsSort] using this
      obtain ⟨h1, h2⟩ := List.mem_filter.mp hres
      exact H t h1 h2
    have hfirst : first.timestamp ≠ TsValue.null := hmem first (by simp)
    have hseed :
        (⟨(tsSec jsParse first.timestamp).map (fun x => x - 1), CHART_START_EQUITY⟩ :
          LineData) =
        injPoint ⟨Int.fdiv (specParseMs jsParse first.timestamp) 1000 - 1,
          CHART_START_EQUITY⟩ := by
      rw [tsSec_eq_spec jsParse first.timestamp hfirst]
      rfl
    rw [hseed]
    rw [show ([injPoint ⟨Int.fdiv (specParseMs jsParse first.timestamp) 1000 - 1,
        CHART_START_EQUITY⟩] : List LineData) =
        ([⟨Int.fdiv (specParseMs jsParse first.timestamp) 1000 - 1,
          CHART_START_EQUITY⟩] : List EquityPoint).map injPoint from rfl]
    rw [specFold_inj jsParse (first :: tail) hmem]
    rw [List.getLast?_map]
    rcases hlast : (List.foldl (specStep jsParse)
        ([⟨Int.fdiv (specParseMs jsParse first.timestamp) 1000 - 1, CHART_START_EQUITY⟩],
          CHART_START_EQUITY, CHART_START_EQUITY) (first :: tail)).1.getLast? with _ | p
    · simp [hlast, injPoint]
    · simp only [hlast, Option.map_some']
      by_cases hc : p.ts = nowSec
      · rw [if_pos (by simp [injPoint, hc]), if_pos (by simp [hc])]
      · rw [if_neg (by simp [injPoint, hc]), if_neg (by simp [hc])]
        simp [injPoint]

theorem some_beq_some (a b : Int) : ((some a : Option Int) == some b) = (a == b) := by
  by_cases h : a = b <;> simp [h]

theorem jsMapSet_inj (m : List (Int × EquityPoint)) (k : Int) (v : EquityPoint) :
    jsMapSet (m.map (fun e => ((some e.1 : Option Int), injPoint e.2))) (some k)
        (injPoint v) =
      (jsMapSet m k v).map (fun e => ((some e.1 : Option Int), injPoint e.2)) := by
  unfold jsMapSet
  have hcond : ((m.map (fun e => ((some e.1 : Option Int), injPoint e.2))).any
      (fun e => e.1 == some k)) = m.any (fun e => e.1 == k) := by
    induction m with
    | nil => rfl
    | cons e es ihm =>
      simp only [List.map_cons, List.any_cons, ihm, some_beq_some]
  rw [hcond]
  by_cases h : (m.any fun e => e.1 == k) = true
  · rw [if_pos h, if_pos h]
    rw [List.map_map, List.map_map]
    refine List.map_congr_left (fun e _ => ?_)
    simp only [Function.comp]
    by_cases hek : e.1 = k
    · simp [hek, some_beq_some]
    · simp [hek, some_beq_some]
  · rw [if_neg h, if_neg h]
    simp

theorem dedup_inj (l : List EquityPoint) (m : List (Int × EquityPoint)) :
    List.foldl (fun m d => jsMapSet m d.time d)
        (m.map (fun e => ((some e.1 : Option Int), injPoint e.2))) (l.map injPoint) =
      (List.foldl (fun m d => jsMapSet m d.ts d) m l).map
        (fun e => ((some e.1 : Option Int), injPoint e.2)) := by
  induction l generalizing m with
  | nil => simp
  | cons x xs ih =>
    simp only [List.map_cons, List.foldl_cons, injPoint_time]
    rw [show (injPoint x) = injPoint x from rfl]
    rw [jsMapSet_inj m x.ts x]
    exact ih _

theorem sort_seen_inj (rawS : List EquityPoint) :
    (jsSort (fun u v => jsKeyLe u.1 v.1)
        (List.foldl (fun m d => jsMapSet m d.time d) [] (rawS.map injPoint))).map
        (fun e => e.2) =
      ((jsSort (fun u v : Int × EquityPoint => decide (u.1 ≤ v.1))
        (List.foldl (fun m d => jsMapSet m d.ts d) [] rawS)).map (fun e => e.2)).map
        injPoint := by
  have hbase : (List.foldl (fun m d => jsMapSet m d.time d) [] (rawS.map injPoint)) =
      (List.foldl (fun m d => jsMapSet m d.ts d) [] rawS).map
        (fun e => ((some e.1 : Option Int), injPoint e.2)) := by
    have := dedup_inj rawS []
    simpa using this
  rw [hbase]
  rw [jsSort_map (fun u v : Int × EquityPoint => decide (u.1 ≤ v.1))
    (fun u v : Option Int × LineData => jsKeyLe u.1 v.1)
    (fun e => ((some e.1 : Option Int), injPoint e.2)) (fun a b => rfl)]
  rw [List.map_map, List.map_map]
  rfl

theorem buildChartData_eq_spec (jsParse : String → Option Int) (trades : List TradeRecord)
    (nowSec : Int)
    (H : ∀ t ∈ trades, isResolved t = true → t.timestamp ≠ TsValue.null) :
    buildChartData jsParse trades nowSec =
      injCurve (buildCurveSpec jsParse trades CHART_START_EQUITY nowSec) := by
  unfold buildChartData buildCurveSpec
  rw [rawCurve_eq_specRaw jsParse trades nowSec H]
  simp only []
  rw [filter_lineDataValid]
  rw [sort_seen_inj]
  unfold injCurve
  refine congrArg₂ ChartOut.mk rfl ?_
  rw [List.map_map]
  rw [show (LineData.value ∘ injPoint) = EquityPoint.value from funext injPoint_value]
  rfl

/-! ## Claim theorems -/

/-- C1 (counterexample): Scenario B as the claim states it fails on the
code: for the single WIN trade with pnl 10 at `T = 1000` and `now =
T + 60`, the produced values are based on the hardcoded start equity
111.8, not on a supplied `startEquity = 100` — the value list is
`[111.8, 121.8, 121.8]`, not `[100, 110, 110]`. -/
theorem c1_scenario_b_counterexample :
    (buildChartData (fun _ => none) [mkTrade (.num 1000) "m" "YES" "WIN" (some 10)]
      1060).data.map LineData.value = [1118/10, 1218/10, 1218/10] ∧
    (buildChartData (fun _ => none) [mkTrade (.num 1000) "m" "YES" "WIN" (some 10)]
      1060).data.map LineData.value ≠ [100, 110, 110] := by
  constructor <;>
    norm_num +decide [buildChartData, rawCurve, sortedTrades, curveStep, maxOrStart, jsSort,
      jsInsert, jsMapSet, jsKeyLe, isResolved, tradeLe, tsSec, parseTimestamp, lineDataValid,
      listMax, CHART_START_EQUITY, mkTrade, Int.fdiv]

/-- C1 (amended): for a trade list containing exactly one record with
result WIN, pnl 10 and timestamp `T`, with `now = T + 60`, the code's
builder (whose start equity is the fixed 111.8, not an argument)
returns the seed point `(T - 1, 111.8)`, the trade point
`(T, 121.8)`, the trailing point `(T + 60, 121.8)`, and all-time high
121.8. -/
theorem c1_scenario_b_amended (jsP : String → Option Int) (T : Int) :
    buildChartData jsP [mkTrade (.num T) "m" "YES" "WIN" (some 10)] (T + 60) =
      ⟨[⟨some (T - 1), CHART_START_EQUITY⟩, ⟨some T, CHART_START_EQUITY + 10⟩,
        ⟨some (T + 60), CHART_START_EQUITY + 10⟩], CHART_START_EQUITY + 10⟩ := by
  have hf : (T * 1000).fdiv 1000 = T := Int.mul_fdiv_cancel T (by norm_num)
  have h1 : T - 1 ≤ T := by omega
  have h2 : T ≤ T + 60 := by omega
  have h3 : ¬ (T = T + 60) := by omega
  have h4 : ¬ (T - 1 = T) := by omega
  have h5 : ¬ (T - 1 = T + 60) := by omega
  norm_num [buildChartData, rawCurve, sortedTrades, curveStep, maxOrStart, jsSort, jsInsert,
    jsMapSet, jsKeyLe, isResolved, tradeLe, tsSec, parseTimestamp, lineDataValid, listMax,
    CHART_START_EQUITY, mkTrade, some_beq_some, hf, h1, h2, h3, h4, h5]

/-- C2: whenever a primary (local) record and a secondary (analytics)
record share the same (slug, normalized side) key, the merged output's
record for that key is the (last) secondary record's content — side
normalized — and the output's keys are pairwise distinct. -/
theorem c2_reconcile_secondary (L A : List TradeRecord) (p s : TradeRecord)
    (_hp : p ∈ L) (hs : s ∈ A) (_hkey : recKey p = recKey s) :
    (∃ s', (A.filter (fun t => recKey t == recKey s)).getLast? = some s' ∧
      (tradesMerged L A).filter (fun r => outKey r == recKey s) = [withNormSide s']) ∧
    ((tradesMerged L A).map outKey).Nodup :=
  ⟨tradesMerged_secondary L A s hs, tradesMerged_keys_nodup L A⟩

/-- C2 (witness): Scenario E — primary `{m1, UP, pnl 5}` and secondary
`{m1, YES, pnl 9}` collide after normalization, and the single
surviving record for the key is the secondary one with pnl 9. -/
theorem c2_reconcile_secondary_witness :
    (∃ s', ([mkTrade (.num 2) "m1" "YES" "WIN" (some 9)].filter
        (fun t => recKey t == recKey (mkTrade (.num 2) "m1" "YES" "WIN" (some 9)))).getLast? =
          some s' ∧
      (tradesMerged [mkTrade (.num 1) "m1" "UP" "WIN" (some 5)]
        [mkTrade (.num 2) "m1" "YES" "WIN" (some 9)]).filter
        (fun r => outKey r == recKey (mkTrade (.num 2) "m1" "YES" "WIN" (some 9))) =
          [withNormSide s']) ∧
    ((tradesMerged [mkTrade (.num 1) "m1" "UP" "WIN" (some 5)]
      [mkTrade (.num 2) "m1" "YES" "WIN" (some 9)]).map outKey).Nodup :=
  c2_reconcile_secondary [mkTrade (.num 1) "m1" "UP" "WIN" (some 5)]
    [mkTrade (.num 2) "m1" "YES" "WIN" (some 9)]
    (mkTrade (.num 1) "m1" "UP" "WIN" (some 5))
    (mkTrade (.num 2) "m1" "YES" "WIN" (some 9))
    (by simp) (by simp)
    (by norm_num +decide [recKey, mkTrade, normalizeSide, jsToUpperCase])

/-- C3 (counterexample): "for every input" fails.  A single WIN trade
whose timestamp is null parses to an Invalid Date; the seed point then
carries a `NaN` time (`none`), which survives into the output, and
`NaN <= x` does not hold, so the output is not ascending in the claim's
sense. -/
theorem c3_ordering_counterexample :
    (buildChartData (fun _ => none) [mkTrade .null "m" "YES" "WIN" (some 10)]
      1000).data.map LineData.time = [none, some 1000] ∧
    ¬ List.Chain' (fun a b : LineData => ∃ x y, a.time = some x ∧ b.time = some y ∧ x ≤ y)
      (buildChartData (fun _ => none) [mkTrade .null "m" "YES" "WIN" (some 10)] 1000).data := by
  have hdata : buildChartData (fun _ => none) [mkTrade .null "m" "YES" "WIN" (some 10)] 1000 =
      ⟨[⟨none, 1118/10⟩, ⟨some 1000, 1218/10⟩], 1218/10⟩ := by
    norm_num +decide [buildChartData, rawCurve, sortedTrades, curveStep, maxOrStart, jsSort,
      jsInsert, jsMapSet, jsKeyLe, isResolved, tradeLe, tsSec, parseTimestamp, lineDataValid,
      listMax, CHART_START_EQUITY, mkTrade, Int.fdiv]
  rw [hdata]
  refine ⟨rfl, ?_⟩
  intro hc
  obtain ⟨⟨x, y, hax, _⟩, _⟩ := List.chain'_cons.mp hc
  simp at hax

/-- C3 (amended): whenever every WIN/LOSS record's timestamp parses to
a valid instant (in particular is not null), the output points are
pairwise strictly ascending in timestamp — so adjacent points are
ordered and no two points share the same truncated-to-the-second
timestamp — and each output point is the last point computed for its
timestamp (later-computed values win the dedup). -/
theorem c3_ordering_amended (jsParse : String → Option Int) (trades : List TradeRecord)
    (nowSec : Int)
    (H : ∀ t ∈ trades, isResolved t = true → t.timestamp ≠ TsValue.null) :
    List.Pairwise StrictlyBefore (buildChartData jsParse trades nowSec).data ∧
    ∀ d ∈ (buildChartData jsParse trades nowSec).data,
      ((rawCurve jsParse trades nowSec).1.filter
        (fun e => e.time == d.time)).getLast? = some d :=
  ⟨buildChartData_strict jsParse trades nowSec H,
   buildChartData_lastwins jsParse trades nowSec⟩

/-- C3 (witness): the amended claim at a concrete input — one WIN trade
with a numeric timestamp. -/
theorem c3_ordering_amended_witness :
    List.Pairwise StrictlyBefore
      (buildChartData (fun _ => none) [mkTrade (.num 1000) "m" "YES" "WIN" (some 10)]
        1060).data ∧
    ∀ d ∈ (buildChartData (fun _ => none) [mkTrade (.num 1000) "m" "YES" "WIN" (some 10)]
        1060).data,
      ((rawCurve (fun _ => none) [mkTrade (.num 1000) "m" "YES" "WIN" (some 10)]
        1060).1.filter (fun e => e.time == d.time)).getLast? = some d :=
  c3_ordering_amended (fun _ => none) [mkTrade (.num 1000) "m" "YES" "WIN" (some 10)] 1060
    (by
      intro t ht _
      simp only [List.mem_singleton] at ht
      subst ht
      simp [mkTrade])

/-- C4: only records with result WIN or LOSS contribute to the curve:
pre-filtering the trade list to the resolved records leaves the output
unchanged, and inserting any record whose result is not WIN/LOSS
(PENDING, TIMEOUT, REJECTED, …) anywhere in the list changes nothing —
it contributes nothing to the running sum and produces no point. -/
theorem c4_resolved_only (jsParse : String → Option Int) (nowSec : Int) :
    (∀ trades, buildChartData jsParse (trades.filter isResolved) nowSec =
      buildChartData jsParse trades nowSec) ∧
    (∀ l₁ l₂ r, isResolved r = false →
      buildChartData jsParse (l₁ ++ r :: l₂) nowSec =
        buildChartData jsParse (l₁ ++ l₂) nowSec) := by
  refine ⟨fun trades => buildChartData_filter jsParse trades nowSec, ?_⟩
  intro l₁ l₂ r hr
  have hfil : (l₁ ++ r :: l₂).filter isResolved = (l₁ ++ l₂).filter isResolved := by
    simp [List.filter_append, List.filter_cons, hr]
  calc buildChartData jsParse (l₁ ++ r :: l₂) nowSec
      = buildChartData jsParse ((l₁ ++ r :: l₂).filter isResolved) nowSec :=
        (buildChartData_filter jsParse _ nowSec).symm
    _ = buildChartData jsParse ((l₁ ++ l₂).filter isResolved) nowSec := by rw [hfil]
    _ = buildChartData jsParse (l₁ ++ l₂) nowSec := buildChartData_filter jsParse _ nowSec

/-- C4 (witness): Scenario D shape — a PENDING record sitting between
two resolved trades contributes nothing. -/
theorem c4_resolved_only_witness :
    buildChartData (fun _ => none)
      ([mkTrade (.num 1000) "a" "YES" "WIN" (some 20)] ++
        mkTrade (.num 1500) "p" "NO" "PENDING" (some 7) ::
          [mkTrade (.num 2000) "b" "NO" "LOSS" (some (-30))]) 3000 =
    buildChartData (fun _ => none)
      ([mkTrade (.num 1000) "a" "YES" "WIN" (some 20)] ++
        [mkTrade (.num 2000) "b" "NO" "LOSS" (some (-30))]) 3000 :=
  (c4_resolved_only (fun _ => none) 3000).2
    [mkTrade (.num 1000) "a" "YES" "WIN" (some 20)]
    [mkTrade (.num 2000) "b" "NO" "LOSS" (some (-30))]
    (mkTrade (.num 1500) "p" "NO" "PENDING" (some 7))
    (by decide)

/-- C5 (counterexample): Scenario C as the claim states it fails on the
code: the builder has no `startEquity = 100` input, so for the two
trades +20 then −30 the tracked high is 111.8 + 20 = 131.8, not 120. -/
theorem c5_ath_counterexample :
    (buildChartData (fun _ => none)
      [mkTrade (.num 1000) "a" "YES" "WIN" (some 20),
       mkTrade (.num 2000) "b" "NO" "LOSS" (some (-30))] 3000).ath = 1318/10 ∧
    (buildChartData (fun _ => none)
      [mkTrade (.num 1000) "a" "YES" "WIN" (some 20),
       mkTrade (.num 2000) "b" "NO" "LOSS" (some (-30))] 3000).ath ≠ 120 := by
  constructor <;>
    norm_num +decide [buildChartData, rawCurve, sortedTrades, curveStep, maxOrStart, jsSort,
      jsInsert, jsMapSet, jsKeyLe, isResolved, tradeLe, tsSec, parseTimestamp, lineDataValid,
      listMax, CHART_START_EQUITY, mkTrade, Int.fdiv]

/-- C5 (amended): the returned all-time high is greater than or equal
to the value of every output point, and in the Scenario C shape run
from the hardcoded baseline 111.8 the running sequence is
111.8 → 131.8 → 101.8 and the all-time high is 131.8 even though the
final value is lower. -/
theorem c5_ath_amended :
    (∀ (jsParse : String → Option Int) (trades : List TradeRecord) (nowSec : Int),
      ∀ d ∈ (buildChartData jsParse trades nowSec).data,
        d.value ≤ (buildChartData jsParse trades nowSec).ath) ∧
    buildChartData (fun _ => none)
      [mkTrade (.num 1000) "a" "YES" "WIN" (some 20),
       mkTrade (.num 2000) "b" "NO" "LOSS" (some (-30))] 3000 =
      ⟨[⟨some 999, 1118/10⟩, ⟨some 1000, 1318/10⟩, ⟨some 2000, 1018/10⟩,
        ⟨some 3000, 1018/10⟩], 1318/10⟩ := by
  refine ⟨buildChartData_ath_ge, ?_⟩
  norm_num +decide [buildChartData, rawCurve, sortedTrades, curveStep, maxOrStart, jsSort,
    jsInsert, jsMapSet, jsKeyLe, isResolved, tradeLe, tsSec, parseTimestamp, lineDataValid,
    listMax, CHART_START_EQUITY, mkTrade, Int.fdiv]

/-- C5 (witness): the high-water bound applied at a concrete input and
point. -/
theorem c5_ath_amended_witness :
    (⟨some 49, CHART_START_EQUITY⟩ : LineData).value ≤
      (buildChartData (fun _ => none) [] 50).ath :=
  c5_ath_amended.1 (fun _ => none) [] 50 ⟨some 49, CHART_START_EQUITY⟩
    (by norm_num +decide [buildChartData, rawCurve, sortedTrades, maxOrStart, jsSort,
      jsInsert, jsMapSet, jsKeyLe, lineDataValid, listMax, CHART_START_EQUITY, Int.fdiv])

/-- C6 (counterexample): the code's builder is not the specification's
three-input `buildCurve`: at `startEquity = 100` the specification's
output differs from the code's (the code seeds at its hardcoded
111.8). -/
theorem c6_pure_counterexample :
    buildChartData (fun _ => none) [] 1000 ≠
      injCurve (buildCurveSpec (fun _ => none) [] 100 1000) := by
  norm_num +decide [buildChartData, rawCurve, sortedTrades, curveStep, maxOrStart, jsSort,
    jsInsert, jsMapSet, jsKeyLe, isResolved, tradeLe, tsSec, parseTimestamp, lineDataValid,
    listMax, CHART_START_EQUITY, buildCurveSpec, specRaw, specSorted, specStep, specMaxOr,
    specParseMs, injCurve, injPoint, Int.fdiv]

/-- C6 (amended): the code's builder is a deterministic pure function
of the trade list and the internally-read current instant (modelled
here as the explicit `nowSec` argument), with the start equity fixed at
111.8 rather than passed in: whenever every resolved record's timestamp
parses, it coincides with the specification's three-input `buildCurve`
applied at `startEquity = CHART_START_EQUITY`. -/
theorem c6_pure_amended (jsParse : String → Option Int) (trades : List TradeRecord)
    (nowSec : Int)
    (H : ∀ t ∈ trades, isResolved t = true → t.timestamp ≠ TsValue.null) :
    buildChartData jsParse trades nowSec =
      injCurve (buildCurveSpec jsParse trades CHART_START_EQUITY nowSec) :=
  buildChartData_eq_spec jsParse trades nowSec H

/-- C6 (witness): the refinement at a concrete input. -/
theorem c6_pure_amended_witness :
    buildChartData (fun _ => none) [mkTrade (.num 1000) "m" "YES" "WIN" (some 10)] 1060 =
      injCurve (buildCurveSpec (fun _ => none)
        [mkTrade (.num 1000) "m" "YES" "WIN" (some 10)] CHART_START_EQUITY 1060) :=
  c6_pure_amended (fun _ => none) [mkTrade (.num 1000) "m" "YES" "WIN" (some 10)] 1060
    (by
      intro t ht _
      simp only [List.mem_singleton] at ht
      subst ht
      simp [mkTrade])

/-- C7 (counterexample): a null/absent timestamp does not become the
earliest possible instant: the code returns an Invalid Date (`NaN`
time, here `none`), which is not the epoch value `some 0` that failing
strings receive. -/
theorem c7_parse_counterexample :
    parseTimestamp (fun _ => none) TsValue.null = none ∧
      (none : Option Int) ≠ some 0 :=
  ⟨rfl, by decide⟩

/-- C7 (amended): timestamp parsing accepts both encodings and never
raises — a unix-seconds number always parses, a string that the host
parses keeps its instant, a string that fails to parse falls back to
the epoch (which sorts first) — but a null/absent value yields an
Invalid Date (`NaN` time) rather than the epoch. -/
theorem c7_parse_amended (jsParse : String → Option Int) :
    parseTimestamp jsParse TsValue.null = none ∧
    (∀ n : Int, parseTimestamp jsParse (.num n) = some (n * 1000)) ∧
    (∀ s ms, jsParse s = some ms → parseTimestamp jsParse (.str s) = some ms) ∧
    (∀ s, jsParse s = none → parseTimestamp jsParse (.str s) = some 0) := by
  refine ⟨rfl, fun n => rfl, fun s ms hs => ?_, fun s hs => ?_⟩
  · simp [parseTimestamp, hs]
  · simp [parseTimestamp, hs]

/-- C7 (witness): the amended clauses at concrete inputs. -/
theorem c7_parse_amended_witness :
    parseTimestamp (fun _ => some 5000) (.str "x") = some 5000 ∧
    parseTimestamp (fun _ => none) (.str "x") = some 0 :=
  ⟨(c7_parse_amended (fun _ => some 5000)).2.2.1 "x" 5000 rfl,
   (c7_parse_amended (fun _ => none)).2.2.2 "x" rfl⟩

/-- C8: `normalizeSide` is pure and total, and maps "UP" (any case) to
"YES", "DOWN" (any case) to "NO", any other non-empty value to its
upper-case form, and empty or null input to the empty string; in
particular `normalizeSide "up" = "YES"`, `normalizeSide "down" = "NO"`,
`normalizeSide "yes" = "YES"`, `normalizeSide null = ""`. -/
theorem c8_normalize_side :
    normalizeSide none = "" ∧
    normalizeSide (some "") = "" ∧
    (∀ s, jsToUpperCase s = "UP" → normalizeSide (some s) = "YES") ∧
    (∀ s, jsToUpperCase s = "DOWN" → normalizeSide (some s) = "NO") ∧
    (∀ s, s ≠ "" → jsToUpperCase s ≠ "UP" → jsToUpperCase s ≠ "DOWN" →
      normalizeSide (some s) = jsToUpperCase s) ∧
    normalizeSide (some "up") = "YES" ∧
    normalizeSide (some "down") = "NO" ∧
    normalizeSide (some "yes") = "YES" := by
  refine ⟨rfl, rfl, ?_, ?_, ?_, by decide, by decide, by decide⟩
  · intro s hs
    have hne : s ≠ "" := by
      intro hc
      rw [hc] at hs
      exact absurd hs (by decide)
    simp [normalizeSide, hne, hs]
  · intro s hs
    have hne : s ≠ "" := by
      intro hc
      rw [hc] at hs
      exact absurd hs (by decide)
    have hup : jsToUpperCase s ≠ "UP" := by
      rw [hs]
      decide
    simp [normalizeSide, hne, hs, hup]
  · intro s hne hup hdown
    simp [normalizeSide, hne, hup, hdown]

/-- C8 (witness): the any-case clauses applied at concrete inputs. -/
theorem c8_normalize_side_witness :
    normalizeSide (some "uP") = "YES" ∧ normalizeSide (some "Down") = "NO" ∧
      normalizeSide (some "no") = "NO" :=
  ⟨c8_normalize_side.2.2.1 "uP" (by decide),
   c8_normalize_side.2.2.2.1 "Down" (by decide),
   c8_normalize_side.2.2.2.2.1 "no" (by decide) (by decide) (by decide)⟩

/-- C9 (counterexample): the surviving record for an overwritten key
does not move to the position of the final (secondary) write: with
primary records m1 (pnl 1) then m2 (pnl 2) and a secondary m1 record
(pnl 9), the output enumerates m1's surviving record first — at m1's
original insertion position — so the pnl sequence is [9, 2], not
[2, 9]. -/
theorem c9_order_counterexample :
    (tradesMerged
      [mkTrade (.num 1) "m1" "UP" "WIN" (some 1), mkTrade (.num 2) "m2" "DOWN" "WIN" (some 2)]
      [mkTrade (.num 3) "m1" "YES" "WIN" (some 9)]).map TradeRecord.pnl_usdc =
      [some 9, some 2] ∧
    (tradesMerged
      [mkTrade (.num 1) "m1" "UP" "WIN" (some 1), mkTrade (.num 2) "m2" "DOWN" "WIN" (some 2)]
      [mkTrade (.num 3) "m1" "YES" "WIN" (some 9)]).map TradeRecord.pnl_usdc ≠
      [some 2, some 9] := by
  constructor <;>
    norm_num +decide [tradesMerged, jsMapSet, recKey, withNormSide, normalizeSide,
      jsToUpperCase, mkTrade]

/-- C9 (amended): the merged output enumerates surviving records in the
order of each key's first insertion (a JavaScript `Map` keeps a key's
original position when it is overwritten): the output's key sequence is
the first-occurrence deduplication of the concatenated inputs' key
sequence. -/
theorem c9_order_amended (L A : List TradeRecord) :
    (tradesMerged L A).map outKey = firstOccur ((L ++ A).map recKey) :=
  tradesMerged_order L A

/-- C10: the equity-curve builder's starting balance is the hardcoded
constant 111.8: `CHART_START_EQUITY = 111.8`, and for every parser,
trade list and current instant the first raw point (the seed/baseline
point) carries exactly that value — the builder takes only the trade
list and the clock, so no payload field can change the baseline. -/
theorem c10_hardcoded_start :
    CHART_START_EQUITY = 1118/10 ∧
    ∀ (jsParse : String → Option Int) (trades : List TradeRecord) (nowSec : Int),
      ((rawCurve jsParse trades nowSec).1.head?.map LineData.value) =
        some CHART_START_EQUITY := by
  refine ⟨by norm_num [CHART_START_EQUITY], ?_⟩
  intro jsParse trades nowSec
  exact rawCurve_head jsParse trades nowSec
